import Mathlib

/-!
Shallow embedding of the CCSDS FEC toolkit (`src/tools/ccsds_fec.py` and the
bit-parsing boundary shared with `src/tools/encoding_tools.py`).

Bits and bytes are `Nat` values (Python integers are unbounded); bit lists and
byte lists are `List Nat`.  Rate and ratio statistics are rationals (`ℚ`),
since Python float division on these small integer quantities is exact enough
for the properties checked here and the guarded-zero behaviour is what the
claims are about.  Fallible constructors are `Except String`.
-/

namespace CCSDSFec

/-- Static table translated from `CCSDSConvolutionalCode.STANDARD_POLYNOMIALS`
(ccsds_fec.py lines 27-46): constraint length, code-rate string, generator
polynomials (octal literals kept as in the source), description. -/
structure ConvStandard where
  constraint_length : Nat
  code_rate : String
  generators : List Nat
  description : String
deriving DecidableEq, Repr

/-- Registry of convolutional standards, in source order. -/
def STANDARD_POLYNOMIALS : List (String × ConvStandard) :=
  [("CCSDS_k3_r12", ⟨7, "1/2", [0o171, 0o133], "K=7, Rate 1/2 - CCSDS 131.0-B-3"⟩),
   ("CCSDS_k3_r13", ⟨7, "1/3", [0o171, 0o133, 0o145], "K=7, Rate 1/3 - CCSDS 131.0-B-3"⟩),
   ("CCSDS_k5_r12", ⟨5, "1/2", [0o31, 0o27], "K=5, Rate 1/2 - Simpler variant"⟩)]

/-- Reed-Solomon configuration record, from
`CCSDSReedSolomon.STANDARD_CONFIGS` (ccsds_fec.py lines 105-120). -/
structure RSConfig where
  n : Nat
  k : Nat
  t : Nat
  nsym : Nat
  description : String
deriving DecidableEq, Repr

/-- Registry of Reed-Solomon standards, in source order. -/
def STANDARD_CONFIGS : List (String × RSConfig) :=
  [("CCSDS_rs255_223", ⟨255, 223, 16, 32, "(255,223) RS code - CCSDS standard"⟩),
   ("CCSDS_rs255_239", ⟨255, 239, 8, 16, "(255,239) RS code - Lighter FEC"⟩)]

/-- Generic constructor-time lookup: `if standard not in TABLE: raise
ValueError(f"Unknown standard: {standard}")` followed by `TABLE[standard]`.
The raised error is the spec's `ConfigurationError`. -/
def lookupStd {α : Type} (table : List (String × α)) (standard : String) : Except String α :=
  match table.find? (fun p => p.1 == standard) with
  | some p => .ok p.2
  | none => .error ("Unknown standard: " ++ standard)

/-- Constructor of `CCSDSConvolutionalCode` (ccsds_fec.py lines 48-56):
selects the standard's parameters or fails. -/
def CCSDSConvolutionalCode.init (standard : String) : Except String ConvStandard :=
  lookupStd STANDARD_POLYNOMIALS standard

/-- Constructor of `CCSDSReedSolomon` (ccsds_fec.py lines 122-129):
selects the RS configuration or fails. -/
def CCSDSReedSolomon.init (standard : String) : Except String RSConfig :=
  lookupStd STANDARD_CONFIGS standard

/-- Inner parity loop of the encoder (ccsds_fec.py lines 69-74): XOR of
`(state >> i) & 1` over the tap positions `i < K` where generator bit `i`
is set. -/
def parityBit (K gen state : Nat) : Nat :=
  (List.range K).foldl
    (fun parity i =>
      if (gen >>> i) &&& 1 = 1 then parity ^^^ ((state >>> i) &&& 1) else parity)
    0

/-- Input-consuming loop of `CCSDSConvolutionalCode.encode`
(ccsds_fec.py lines 63-74): per input bit, shift-and-mask the register, then
emit one parity bit per generator, in generator order.  Returns the emitted
bits and the final register state. -/
def encodeSteps (K : Nat) (gens : List Nat) : List Nat → Nat → List Nat × Nat
  | [], state => ([], state)
  | bit :: rest, state =>
    let state1 := ((state <<< 1) ||| bit) &&& ((1 <<< (K - 1)) - 1)
    let out := gens.map (fun gen => parityBit K gen state1)
    let next := encodeSteps K gens rest state1
    (out ++ next.1, next.2)

/-- Tail-bit loop of `CCSDSConvolutionalCode.encode` (ccsds_fec.py lines
76-85): `n` flush steps, each shifting in a zero and emitting one parity bit
per generator.  Returns the emitted bits and the final register state. -/
def flushSteps (K : Nat) (gens : List Nat) : Nat → Nat → List Nat × Nat
  | 0, state => ([], state)
  | n + 1, state =>
    let state1 := (state <<< 1) &&& ((1 <<< (K - 1)) - 1)
    let out := gens.map (fun gen => parityBit K gen state1)
    let next := flushSteps K gens n state1
    (out ++ next.1, next.2)

/-- Statistics record built by `CCSDSConvolutionalCode.encode`
(ccsds_fec.py lines 87-93); the constant `code_rate` string is carried in the
standard record and omitted here. -/
structure ConvStats where
  input_length : Nat
  output_length : Nat
  constraint_length : Nat
  expansion_ratio : ℚ
deriving DecidableEq, Repr

/-- Translation of `CCSDSConvolutionalCode.encode` (ccsds_fec.py lines
58-95): encode all input bits from register state 0, then run `K - 1` flush
steps; `expansion_ratio` is `len(encoded) / len(input_bits)` guarded to 0 on
empty input. -/
def CCSDSConvolutionalCode.encode (K : Nat) (gens : List Nat) (input_bits : List Nat) :
    List Nat × ConvStats :=
  let body := encodeSteps K gens input_bits 0
  let tail := flushSteps K gens (K - 1) body.2
  let encoded := body.1 ++ tail.1
  (encoded,
    { input_length := input_bits.length
      output_length := encoded.length
      constraint_length := K
      expansion_ratio :=
        if input_bits.isEmpty then 0
        else (encoded.length : ℚ) / (input_bits.length : ℚ) })

/-- MSB-first bit expansion of one byte, from the loop
`for i in range(8): bits.append((byte >> (7 - i)) & 1)`
(ccsds_fec.py lines 185-187). -/
def bitsOfByte (byte : Nat) : List Nat :=
  (List.range 8).map (fun i => (byte >>> (7 - i)) &&& 1)

/-- Byte-sequence to bit-sequence conversion (spec's `bytes_to_bits`,
inlined at ccsds_fec.py lines 184-187): concatenates the MSB-first bits of
each byte in order. -/
def bytes_to_bits : List Nat → List Nat
  | [] => []
  | byte :: rest => bitsOfByte byte ++ bytes_to_bits rest

/-- Accumulation `byte_val = (byte_val << 1) | bit` over one 8-bit chunk
(ccsds_fec.py lines 198-200). -/
def byteOfBits (byte_bits : List Nat) : Nat :=
  byte_bits.foldl (fun byte_val bit => (byte_val <<< 1) ||| bit) 0

/-- Bit-sequence to byte-sequence conversion (spec's `bits_to_bytes`,
inlined at ccsds_fec.py lines 192-201): 8-bit chunks in order, the final
partial chunk zero-filled at its end (low-order positions). -/
def bits_to_bytes (bits : List Nat) : List Nat :=
  if h : bits = [] then []
  else
    byteOfBits (bits.take 8 ++ List.replicate (8 - (bits.take 8).length) 0)
      :: bits_to_bytes (bits.drop 8)
termination_by bits.length
decreasing_by
  have hp : 0 < bits.length := List.length_pos.mpr h
  simp only [List.length_drop]
  omega

/-- Statistics record built by `CCSDSConcatenatedCode.encode`
(ccsds_fec.py lines 205-212); the constant `code_type` string is omitted. -/
structure ConcatStats where
  original_data_length : Nat
  rs_encoded_length : Nat
  total_bits : Nat
  output_length : Nat
  overall_code_rate : ℚ
deriving DecidableEq, Repr

/-- Translation of `CCSDSConcatenatedCode.encode` (ccsds_fec.py lines
178-214).  The inner Reed-Solomon engine is the external `reedsolo` library
(a black box per the spec), so it enters as the function parameter
`rs_encode`; the final base64 presentation step is dropped and the
pre-base64 byte list is returned.  `overall_code_rate` is
`(len(data) * 8) / len(conv_encoded)` guarded to 0 when `conv_encoded` is
empty. -/
def CCSDSConcatenatedCode.encode (conv : ConvStandard) (rs_encode : List Nat → List Nat)
    (data : List Nat) : List Nat × ConcatStats :=
  let rs_encoded := rs_encode data
  let bits := bytes_to_bits rs_encoded
  let convResult := CCSDSConvolutionalCode.encode conv.constraint_length conv.generators bits
  let conv_encoded := convResult.1
  let output_bytes := bits_to_bytes conv_encoded
  (output_bytes,
    { original_data_length := data.length
      rs_encoded_length := rs_encoded.length
      total_bits := conv_encoded.length
      output_length := output_bytes.length
      overall_code_rate :=
        if conv_encoded.isEmpty then 0
        else ((data.length * 8 : Nat) : ℚ) / (conv_encoded.length : ℚ) })

/-- Translation of `CCSDSTurboCodes.encode` (ccsds_fec.py lines 228-264):
bit-doubling repetition stand-in; returns the packed byte list (base64
presentation dropped). -/
def CCSDSTurboCodes.encode (data : List Nat) : List Nat :=
  let bits := bytes_to_bits data
  bits_to_bytes (bits ++ bits)

/-- Translation of `CCSDSLDPCCodes.encode` (ccsds_fec.py lines 274-315):
repetition by `rate_den // rate_num` copies of the bit list; returns the
packed byte list (base64 presentation dropped). -/
def CCSDSLDPCCodes.encode (rate_num rate_den : Nat) (data : List Nat) : List Nat :=
  let bits := bytes_to_bits data
  let multiplier := rate_den / rate_num
  bits_to_bytes (List.flatten (List.replicate multiplier bits))

/-- Python `str.strip()` on a character list: drop leading and trailing
whitespace. -/
def pyStrip (cs : List Char) : List Char :=
  ((cs.dropWhile Char.isWhitespace).reverse.dropWhile Char.isWhitespace).reverse

/-- Value of a decimal digit character. -/
def digitVal (c : Char) : Nat := c.toNat - 48

/-- Value of a non-empty all-digit character run. -/
def digitsVal (cs : List Char) : Nat :=
  cs.foldl (fun a c => 10 * a + digitVal c) 0

/-- Python `int(token)` on a stripped token: optional sign followed by a
non-empty run of decimal digits, anything else raises (here: `none`). -/
def pyInt (cs : List Char) : Option Int :=
  match pyStrip cs with
  | '-' :: rest =>
    if rest ≠ [] ∧ rest.all Char.isDigit then some (-(digitsVal rest : Int)) else none
  | '+' :: rest =>
    if rest ≠ [] ∧ rest.all Char.isDigit then some ((digitsVal rest : Int)) else none
  | t => if t ≠ [] ∧ t.all Char.isDigit then some ((digitsVal t : Int)) else none

/-- Split a character list on commas (Python `str.split(',')`). -/
def splitOnComma : List Char → List (List Char)
  | [] => [[]]
  | c :: rest =>
    match splitOnComma rest with
    | [] => if c = ',' then [[], []] else [[c]]
    | t :: ts => if c = ',' then [] :: t :: ts else (c :: t) :: ts

/-- Bit-string parsing shared verbatim by `ccsds_convolution_encode`
(ccsds_fec.py lines 329-332) and `convolution_encode`
(encoding_tools.py lines 240-244): if the string contains a comma, apply
`int(b.strip())` to each comma-separated token; otherwise remove spaces and
apply `int(b)` to each remaining character.  No check restricts the parsed
integers to 0 and 1. -/
def parseBits (input : List Char) : Option (List Int) :=
  if ',' ∈ input then
    (splitOnComma input).mapM pyInt
  else
    (input.filter (fun c => c ≠ ' ')).mapM (fun c => pyInt [c])

/-- Outcome of a tool call at the API boundary: `success` carries the parsed
bit values that are handed on to the encoder, `error` the caught exception
message (the spec's `ParseError` / `ConfigurationError`). -/
inductive ToolOutcome where
  | success (bits : List Int)
  | error (message : String)
deriving DecidableEq, Repr

/-- Translation of the parse-and-dispatch stage of `ccsds_convolution_encode`
(ccsds_fec.py lines 322-357): parse the bit string, construct the codec
(standard lookup), then encode.  The encoding loop itself is total on
whatever integers were parsed, so `success` records exactly the bit values
delivered to `CCSDSConvolutionalCode.encode`. -/
def ccsds_convolution_encode (input_bits : List Char) (standard : String) : ToolOutcome :=
  match parseBits input_bits with
  | none => .error "ParseError"
  | some bits =>
    match CCSDSConvolutionalCode.init standard with
    | .error e => .error e
    | .ok _ => .success bits

/-- Translation of the bit-parsing stage of `convolution_encode`
(encoding_tools.py lines 225-270): identical bit parsing; the downstream
constraint-length-3 encoding loop is total on the parsed integers, so
`success` records the bit values it receives. -/
def convolution_encode (input_bits : List Char) : ToolOutcome :=
  match parseBits input_bits with
  | none => .error "ParseError"
  | some bits => .success bits

/-! Spec-side description of the encoding step, for the refinement claim C2.
The next two definitions transcribe the spec's own words (spec.md §4.1), to
be compared with `encodeSteps`, which is translated from the source. -/

/-- Parity bit as the spec words it: popcount of the bitwise AND of the
generator and the (zero-extended) register state, over the low K bit
positions, reduced mod 2. -/
def specParity (K g s : Nat) : Nat :=
  (((List.range K).map (fun i => ((g &&& s) >>> i) &&& 1)).sum) % 2

/-- Input-bit processing as the spec words it: per input bit, in order,
`state = ((state << 1) | b) mod 2^(K-1)`, then one `specParity` output bit
per generator, in generator-list order. -/
def specEncode (K : Nat) (gens : List Nat) : List Nat → Nat → List Nat
  | [], _ => []
  | b :: rest, state =>
    let state1 := ((state <<< 1) ||| b) % 2 ^ (K - 1)
    gens.map (fun g => specParity K g state1) ++ specEncode K gens rest state1

/-- One entry of the comparison report's `methods` mapping
(ccsds_fec.py lines 490-541): method name and encoded size in bytes. -/
structure MethodEntry where
  method : String
  encoded_size : Nat
deriving DecidableEq, Repr

/-- Translation of `ccsds_fec_comparison` (ccsds_fec.py lines 479-549).
Each of the four methods runs inside `try/except: pass`, so the report keeps
only the methods that succeeded.  The Reed-Solomon method calls the external
`reedsolo` engine, whose outcome enters as `rs_result` (`none` models its
failure); the convolutional, turbo and LDPC methods are internal total
computations and always contribute their entry. -/
def ccsds_fec_comparison (rs_result : Option (List Nat)) (data : List Nat) :
    List MethodEntry :=
  (match rs_result with
   | some encoded => [⟨"Reed-Solomon (255,223)", encoded.length⟩]
   | none => [])
  ++ [⟨"Convolutional (K=7, Rate 1/2)",
        ((CCSDSConvolutionalCode.encode 7 [0o171, 0o133] (bytes_to_bits data)).1.length + 7) / 8⟩]
  ++ [⟨"Turbo Code", (CCSDSTurboCodes.encode data).length⟩]
  ++ [⟨"LDPC Code", (CCSDSLDPCCodes.encode 1 2 data).length⟩]

/-! Helper lemmas about the encoder loops. -/

theorem encodeSteps_length (K : Nat) (gens : List Nat) (bits : List Nat) (s : Nat) :
    (encodeSteps K gens bits s).1.length = gens.length * bits.length := by
  induction bits generalizing s with
  | nil => simp [encodeSteps]
  | cons b rest ih =>
    simp only [encodeSteps, List.length_append, List.length_map, List.length_cons, ih]
    ring

theorem flushSteps_length (K : Nat) (gens : List Nat) (n s : Nat) :
    (flushSteps K gens n s).1.length = gens.length * n := by
  induction n generalizing s with
  | zero => simp [flushSteps]
  | succ n ih =>
    simp only [flushSteps, List.length_append, List.length_map, ih]
    ring

theorem encodeSteps_state_lt (K : Nat) (gens : List Nat) (bits : List Nat) (s : Nat)
    (hs : s < 2 ^ (K - 1)) : (encodeSteps K gens bits s).2 < 2 ^ (K - 1) := by
  induction bits generalizing s with
  | nil => simpa [encodeSteps] using hs
  | cons b rest ih =>
    simp only [encodeSteps]
    apply ih
    rw [Nat.one_shiftLeft, Nat.and_pow_two_sub_one_eq_mod]
    exact Nat.mod_lt _ (Nat.two_pow_pos _)

theorem flushSteps_state (K : Nat) (gens : List Nat) (n s : Nat) (hs : s < 2 ^ (K - 1)) :
    (flushSteps K gens n s).2 = s * 2 ^ n % 2 ^ (K - 1) := by
  induction n generalizing s with
  | zero => simp [flushSteps, Nat.mod_eq_of_lt hs]
  | succ n ih =>
    simp only [flushSteps]
    rw [ih _ (by rw [Nat.one_shiftLeft, Nat.and_pow_two_sub_one_eq_mod]; exact Nat.mod_lt _ (Nat.two_pow_pos _))]
    rw [Nat.one_shiftLeft, Nat.and_pow_two_sub_one_eq_mod, Nat.shiftLeft_eq, Nat.mod_mul_mod]
    have harr : s * 2 ^ 1 * 2 ^ n = s * 2 ^ (n + 1) := by ring
    rw [harr]

theorem encode_output_length (K : Nat) (gens : List Nat) (bits : List Nat) (hK : 1 ≤ K) :
    (CCSDSConvolutionalCode.encode K gens bits).1.length
      = gens.length * (bits.length + K - 1) := by
  show ((encodeSteps K gens bits 0).1
      ++ (flushSteps K gens (K - 1) (encodeSteps K gens bits 0).2).1).length = _
  rw [List.length_append, encodeSteps_length, flushSteps_length]
  have hsplit : bits.length + K - 1 = bits.length + (K - 1) := by omega
  rw [hsplit, Nat.mul_add]

/-- C1: for every list of input bits of length L (including L = 0), the
convolutional encoder with constraint length K and r generator polynomials
returns exactly r·(L + K − 1) encoded bits; the empty input yields exactly
r·(K − 1) flush-only bits, and the K=7 rate-1/2 standard on input
[1,0,1,1,0] yields exactly 22 bits. -/
theorem C1_encode_output_length :
    (∀ K gens (bits : List Nat), 1 ≤ K →
      (CCSDSConvolutionalCode.encode K gens bits).1.length
        = gens.length * (bits.length + K - 1)) ∧
    (∀ K gens, 1 ≤ K →
      (CCSDSConvolutionalCode.encode K gens ([] : List Nat)).1.length
        = gens.length * (K - 1)) ∧
    (CCSDSConvolutionalCode.encode 7 [0o171, 0o133] [1, 0, 1, 1, 0]).1.length = 22 :=
  ⟨encode_output_length,
   fun K gens hK => by simpa using encode_output_length K gens [] hK, by decide⟩

/-- Witness for C1 at a concrete input: the K=5 rate-1/2 standard on three
input bits. -/
theorem C1_encode_output_length_witness :
    (CCSDSConvolutionalCode.encode 5 [0o31, 0o27] [1, 1, 0]).1.length
      = [0o31, 0o27].length * ([1, 1, 0].length + 5 - 1) :=
  C1_encode_output_length.1 5 [0o31, 0o27] [1, 1, 0] (by decide)

/-- C7: after the K − 1 flush steps the shift-register state is exactly 0,
for every input bit list; and the flush steps are not counted in the
reported `input_length`. -/
theorem C7_flush_drains_register :
    ∀ K gens (bits : List Nat),
      (flushSteps K gens (K - 1) (encodeSteps K gens bits 0).2).2 = 0
      ∧ (CCSDSConvolutionalCode.encode K gens bits).2.input_length = bits.length := by
  intro K gens bits
  refine ⟨?_, rfl⟩
  have h := encodeSteps_state_lt K gens bits 0 (Nat.two_pow_pos _)
  rw [flushSteps_state K gens _ _ h]
  exact Nat.mul_mod_left _ _

theorem and_bit_mul (g s i : Nat) :
    ((g &&& s) >>> i) &&& 1 = ((g >>> i) &&& 1) * ((s >>> i) &&& 1) := by
  have h := Nat.testBit_and g s i
  simp only [Nat.testBit_to_div_mod] at h
  simp only [Nat.and_one_is_mod, Nat.shiftRight_eq_div_pow]
  have hg : g / 2 ^ i % 2 = 0 ∨ g / 2 ^ i % 2 = 1 := Nat.mod_two_eq_zero_or_one _
  have hs : s / 2 ^ i % 2 = 0 ∨ s / 2 ^ i % 2 = 1 := Nat.mod_two_eq_zero_or_one _
  have ha : (g &&& s) / 2 ^ i % 2 = 0 ∨ (g &&& s) / 2 ^ i % 2 = 1 :=
    Nat.mod_two_eq_zero_or_one _
  rcases hg with hg | hg <;> rcases hs with hs | hs <;> rcases ha with ha | ha <;>
    simp [hg, hs, ha] at h ⊢

theorem xor_as_add_mod_two (a b : Nat) (ha : a ≤ 1) (hb : b ≤ 1) :
    a ^^^ b = (a + b) % 2 := by
  interval_cases a <;> interval_cases b <;> decide

theorem parityBit_eq_specParity (K g s : Nat) : parityBit K g s = specParity K g s := by
  induction K with
  | zero => rfl
  | succ K ih =>
    unfold parityBit specParity at ih ⊢
    rw [List.range_succ, List.foldl_append, List.map_append, List.sum_append]
    simp only [List.foldl_cons, List.foldl_nil, List.map_cons, List.map_nil,
      List.sum_cons, List.sum_nil, Nat.add_zero]
    rw [ih, and_bit_mul]
    by_cases hc : (g >>> K) &&& 1 = 1
    · rw [if_pos hc, hc, Nat.one_mul]
      have h1 : (((List.range K).map (fun i => ((g &&& s) >>> i) &&& 1)).sum) % 2 ≤ 1 := by
        omega
      rw [xor_as_add_mod_two _ _ h1 Nat.and_le_right]
      omega
    · have hc0 : (g >>> K) &&& 1 = 0 := by
        have := Nat.and_le_right (n := g >>> K) (m := 1)
        omega
      rw [if_neg hc, hc0, Nat.zero_mul, Nat.add_zero]

theorem encodeSteps_eq_specEncode (K : Nat) (gens : List Nat) (bits : List Nat) (s : Nat) :
    (encodeSteps K gens bits s).1 = specEncode K gens bits s := by
  induction bits generalizing s with
  | nil => rfl
  | cons b rest ih =>
    simp only [encodeSteps, specEncode, Nat.one_shiftLeft,
      Nat.and_pow_two_sub_one_eq_mod, parityBit_eq_specParity, ih]

/-- C2: the encoder processes input bits in order via
`state = ((state << 1) | b) mod 2^(K-1)` and, for each state, emits one bit
per generator in generator-list order equal to popcount(g AND state) mod 2
over the low K bit positions: the input-derived prefix of the encoder output
coincides with the spec-side transcription `specEncode`. -/
theorem C2_encode_matches_spec_steps :
    ∀ K gens (bits : List Nat),
      ((CCSDSConvolutionalCode.encode K gens bits).1).take (gens.length * bits.length)
        = specEncode K gens bits 0 := by
  intro K gens bits
  show ((encodeSteps K gens bits 0).1
      ++ (flushSteps K gens (K - 1) (encodeSteps K gens bits 0).2).1).take
        (gens.length * bits.length) = _
  rw [List.take_left' (encodeSteps_length K gens bits 0)]
  exact encodeSteps_eq_specEncode K gens bits 0

/-! Constructor lookup lemmas. -/

theorem lookupStd_isOk_iff {α : Type} (table : List (String × α)) (s : String) :
    (lookupStd table s).isOk = true ↔ s ∈ table.map Prod.fst := by
  unfold lookupStd
  cases h : table.find? (fun p => p.1 == s) with
  | none =>
    simp only [Except.isOk, Except.toBool]
    constructor
    · intro hfalse; cases hfalse
    · intro hmem
      rw [List.find?_eq_none] at h
      rcases List.mem_map.mp hmem with ⟨p, hp, hps⟩
      exact absurd (by simpa using hps) (by simpa using h p hp)
  | some p =>
    simp only [Except.isOk, Except.toBool]
    constructor
    · intro _
      have hps : p.1 = s := by simpa using List.find?_some h
      exact List.mem_map.mpr ⟨p, List.mem_of_find?_eq_some h, hps⟩
    · intro _; trivial

theorem lookupStd_ok_mem {α : Type} (table : List (String × α)) (s : String) (cfg : α)
    (h : lookupStd table s = .ok cfg) : (s, cfg) ∈ table := by
  unfold lookupStd at h
  cases hf : table.find? (fun p => p.1 == s) with
  | none => rw [hf] at h; cases h
  | some p =>
    rw [hf] at h
    have hps : p.1 = s := by simpa using List.find?_some hf
    have hcfg : p.2 = cfg := by cases h; rfl
    have : (s, cfg) = p := by rw [← hps, ← hcfg]
    rw [this]
    exact List.mem_of_find?_eq_some hf

theorem lookupStd_not_mem {α : Type} (table : List (String × α)) (s : String)
    (h : s ∉ table.map Prod.fst) :
    lookupStd table s = .error ("Unknown standard: " ++ s) := by
  unfold lookupStd
  cases hf : table.find? (fun p => p.1 == s) with
  | none => rfl
  | some p =>
    exfalso
    apply h
    have hps : p.1 = s := by simpa using List.find?_some hf
    exact List.mem_map.mpr ⟨p, List.mem_of_find?_eq_some hf, hps⟩

/-- C5: construction succeeds exactly for the registered standard names, the
returned configuration is the registered one (no silent default), and every
unknown name fails with the configuration error. -/
theorem C5_unknown_standard_rejected :
    (∀ s, ((CCSDSConvolutionalCode.init s).isOk = true
            ↔ s ∈ STANDARD_POLYNOMIALS.map Prod.fst)
      ∧ (∀ cfg, CCSDSConvolutionalCode.init s = .ok cfg → (s, cfg) ∈ STANDARD_POLYNOMIALS)
      ∧ (s ∉ STANDARD_POLYNOMIALS.map Prod.fst →
          CCSDSConvolutionalCode.init s = .error ("Unknown standard: " ++ s)))
    ∧ (∀ s, ((CCSDSReedSolomon.init s).isOk = true ↔ s ∈ STANDARD_CONFIGS.map Prod.fst)
      ∧ (∀ cfg, CCSDSReedSolomon.init s = .ok cfg → (s, cfg) ∈ STANDARD_CONFIGS)
      ∧ (s ∉ STANDARD_CONFIGS.map Prod.fst →
          CCSDSReedSolomon.init s = .error ("Unknown standard: " ++ s))) :=
  ⟨fun s => ⟨lookupStd_isOk_iff _ s, fun cfg => lookupStd_ok_mem _ s cfg,
      lookupStd_not_mem _ s⟩,
   fun s => ⟨lookupStd_isOk_iff _ s, fun cfg => lookupStd_ok_mem _ s cfg,
      lookupStd_not_mem _ s⟩⟩

/-- Witness for C5: a registered name constructs its registered
configuration; an unknown name yields the configuration error. -/
theorem C5_unknown_standard_rejected_witness :
    ("CCSDS_k3_r12",
        (⟨7, "1/2", [0o171, 0o133], "K=7, Rate 1/2 - CCSDS 131.0-B-3"⟩ : ConvStandard))
      ∈ STANDARD_POLYNOMIALS
    ∧ CCSDSReedSolomon.init "bogus" = .error ("Unknown standard: " ++ "bogus") :=
  ⟨(C5_unknown_standard_rejected.1 "CCSDS_k3_r12").2.1 _ rfl,
   (C5_unknown_standard_rejected.2 "bogus").2.2 (by decide)⟩

/-- C9: on any non-empty input the comparison harness returns at least one
successful method entry, the methods appear in source order, and the
Reed-Solomon entry is present exactly when the external RS engine succeeded
(an RS failure does not abort the other methods). -/
theorem C9_comparison_isolated_failures :
    ∀ rs_result (data : List Nat), data ≠ [] →
      1 ≤ (ccsds_fec_comparison rs_result data).length
      ∧ ((ccsds_fec_comparison rs_result data).map MethodEntry.method
          = (if rs_result.isSome then ["Reed-Solomon (255,223)"] else [])
              ++ ["Convolutional (K=7, Rate 1/2)", "Turbo Code", "LDPC Code"]) := by
  intro rs_result data _
  cases rs_result <;> simp [ccsds_fec_comparison]

/-- Witness for C9: with the Reed-Solomon engine failing on input [1], the
report still holds the three internal methods. -/
theorem C9_comparison_isolated_failures_witness :
    1 ≤ (ccsds_fec_comparison none [1]).length
    ∧ ((ccsds_fec_comparison none [1]).map MethodEntry.method
        = ["Convolutional (K=7, Rate 1/2)", "Turbo Code", "LDPC Code"]) := by
  have h := C9_comparison_isolated_failures none [1] (by decide)
  simpa using h

/-! Packing-layer lemmas. -/

theorem bits_to_bytes_nil : bits_to_bytes [] = [] := by
  rw [bits_to_bytes]
  rfl

theorem bits_to_bytes_cons (bits : List Nat) (hne : bits ≠ []) :
    bits_to_bytes bits
      = byteOfBits (bits.take 8 ++ List.replicate (8 - (bits.take 8).length) 0)
        :: bits_to_bytes (bits.drop 8) := by
  rw [bits_to_bytes]
  simp [hne]

theorem bytes_to_bits_length (bs : List Nat) : (bytes_to_bits bs).length = 8 * bs.length := by
  induction bs with
  | nil => rfl
  | cons b rest ih =>
    simp only [bytes_to_bits, List.length_append, List.length_cons, ih, bitsOfByte,
      List.length_map, List.length_range]
    ring

theorem bits_to_bytes_length_aux :
    ∀ (n : Nat) (bits : List Nat), bits.length ≤ n →
      (bits_to_bytes bits).length = (bits.length + 7) / 8
  | 0, bits, h => by
    have hnil : bits = [] := List.length_eq_zero.mp (by omega)
    subst hnil
    rw [bits_to_bytes_nil]
    rfl
  | n + 1, bits, h => by
    by_cases hne : bits = []
    · subst hne; rw [bits_to_bytes_nil]; rfl
    · have hpos : 0 < bits.length := List.length_pos.mpr hne
      rw [bits_to_bytes_cons bits hne]
      have hdrop : (bits.drop 8).length = bits.length - 8 := List.length_drop 8 bits
      have hrec := bits_to_bytes_length_aux n (bits.drop 8) (by omega)
      simp only [List.length_cons, hrec, hdrop]
      omega

theorem bits_to_bytes_length (bits : List Nat) :
    (bits_to_bytes bits).length = (bits.length + 7) / 8 :=
  bits_to_bytes_length_aux bits.length bits le_rfl

set_option maxRecDepth 8192 in
theorem byteOfBits_bitsOfByte : ∀ b < 256, byteOfBits (bitsOfByte b) = b := by decide

theorem bitsOfByte_byteOfBits_tuple :
    ∀ a b c d e f g h : Fin 2,
      bitsOfByte (byteOfBits [a.val, b.val, c.val, d.val, e.val, f.val, g.val, h.val])
        = [a.val, b.val, c.val, d.val, e.val, f.val, g.val, h.val] := by
  decide

theorem chunk8_roundtrip (chunk : List Nat) (hlen : chunk.length = 8)
    (hbit : ∀ x ∈ chunk, x < 2) : bitsOfByte (byteOfBits chunk) = chunk := by
  rcases chunk with _ | ⟨a, chunk⟩
  · simp at hlen
  rcases chunk with _ | ⟨b, chunk⟩
  · simp at hlen
  rcases chunk with _ | ⟨c, chunk⟩
  · simp at hlen
  rcases chunk with _ | ⟨d, chunk⟩
  · simp at hlen
  rcases chunk with _ | ⟨e, chunk⟩
  · simp at hlen
  rcases chunk with _ | ⟨f, chunk⟩
  · simp at hlen
  rcases chunk with _ | ⟨g, chunk⟩
  · simp at hlen
  rcases chunk with _ | ⟨h, chunk⟩
  · simp at hlen
  rcases chunk with _ | ⟨i, chunk⟩
  · exact bitsOfByte_byteOfBits_tuple ⟨a, hbit a (by simp)⟩ ⟨b, hbit b (by simp)⟩
      ⟨c, hbit c (by simp)⟩ ⟨d, hbit d (by simp)⟩ ⟨e, hbit e (by simp)⟩
      ⟨f, hbit f (by simp)⟩ ⟨g, hbit g (by simp)⟩ ⟨h, hbit h (by simp)⟩
  · simp at hlen

theorem bits_to_bytes_of_bytes_to_bits (B : List Nat) (hB : ∀ x ∈ B, x < 256) :
    bits_to_bytes (bytes_to_bits B) = B := by
  induction B with
  | nil => exact bits_to_bytes_nil
  | cons b rest ih =>
    have h8 : (bitsOfByte b).length = 8 := by simp [bitsOfByte]
    simp only [bytes_to_bits]
    rw [bits_to_bytes_cons _ (by simp [bitsOfByte]),
      List.take_left' h8, List.drop_left' h8, h8]
    simp only [Nat.sub_self, List.replicate_zero, List.append_nil]
    rw [byteOfBits_bitsOfByte b (hB b (List.mem_cons_self _ _)),
      ih (fun x hx => hB x (List.mem_cons_of_mem _ hx))]

theorem bytes_to_bits_of_bits_to_bytes_aux :
    ∀ (n : Nat) (bits : List Nat), bits.length ≤ n → (∀ x ∈ bits, x < 2) →
      bits.length % 8 = 0 → bytes_to_bits (bits_to_bytes bits) = bits
  | 0, bits, h, _, _ => by
    have hnil : bits = [] := List.length_eq_zero.mp (by omega)
    subst hnil
    rw [bits_to_bytes_nil]
    rfl
  | n + 1, bits, h, hbit, hmul => by
    by_cases hne : bits = []
    · subst hne; rw [bits_to_bytes_nil]; rfl
    · have hpos : 0 < bits.length := List.length_pos.mpr hne
      have h8le : 8 ≤ bits.length := by omega
      have htake : (bits.take 8).length = 8 := by rw [List.length_take]; omega
      have hdrop : (bits.drop 8).length = bits.length - 8 := List.length_drop 8 bits
      rw [bits_to_bytes_cons bits hne, htake]
      simp only [Nat.sub_self, List.replicate_zero, List.append_nil]
      simp only [bytes_to_bits]
      rw [chunk8_roundtrip _ htake (fun x hx => hbit x (List.take_subset 8 bits hx)),
        bytes_to_bits_of_bits_to_bytes_aux n (bits.drop 8) (by omega)
          (fun x hx => hbit x (List.drop_subset 8 bits hx)) (by omega)]
      exact List.take_append_drop 8 bits

theorem bytes_to_bits_of_bits_to_bytes (bits : List Nat) (hbit : ∀ x ∈ bits, x < 2)
    (hmul : bits.length % 8 = 0) : bytes_to_bits (bits_to_bytes bits) = bits :=
  bytes_to_bits_of_bits_to_bytes_aux bits.length bits le_rfl hbit hmul

theorem bytes_to_bits_of_bits_to_bytes_ne (bits : List Nat) (h : bits.length % 8 ≠ 0) :
    bytes_to_bits (bits_to_bytes bits) ≠ bits := by
  intro heq
  have h1 := congrArg List.length heq
  rw [bytes_to_bits_length, bits_to_bytes_length] at h1
  omega

/-- C3: bytes-to-bits followed by bits-to-bytes is the identity on byte
sequences; bits-to-bytes followed by bytes-to-bits is the identity on bit
sequences whose length is a multiple of 8; and for every bit sequence whose
length is not a multiple of 8 the two conversions fail to be inverses (the
zero padding is one-directional). -/
theorem C3_pack_roundtrips :
    (∀ B : List Nat, (∀ x ∈ B, x < 256) → bits_to_bytes (bytes_to_bits B) = B)
    ∧ (∀ bits : List Nat, (∀ x ∈ bits, x < 2) → bits.length % 8 = 0 →
        bytes_to_bits (bits_to_bytes bits) = bits)
    ∧ (∀ bits : List Nat, bits.length % 8 ≠ 0 →
        bytes_to_bits (bits_to_bytes bits) ≠ bits) :=
  ⟨bits_to_bytes_of_bytes_to_bits, bytes_to_bits_of_bits_to_bytes,
   bytes_to_bits_of_bits_to_bytes_ne⟩

/-- Witness for C3 at concrete inputs: a two-byte round trip, an aligned
nine-times-zero-free bit round trip, and a one-bit sequence where the
conversions disagree. -/
theorem C3_pack_roundtrips_witness :
    bits_to_bytes (bytes_to_bits [202, 7]) = [202, 7]
    ∧ bytes_to_bits (bits_to_bytes [1, 0, 1, 1, 0, 1, 0, 1]) = [1, 0, 1, 1, 0, 1, 0, 1]
    ∧ bytes_to_bits (bits_to_bytes [1]) ≠ [1] :=
  ⟨C3_pack_roundtrips.1 [202, 7] (by decide),
   C3_pack_roundtrips.2.1 [1, 0, 1, 1, 0, 1, 0, 1] (by decide) (by decide),
   C3_pack_roundtrips.2.2 [1] (by decide)⟩

theorem bits_to_bytes_pad_aux :
    ∀ (n : Nat) (bits : List Nat), bits.length ≤ n →
      bits_to_bytes bits
        = bits_to_bytes (bits ++ List.replicate ((8 - bits.length % 8) % 8) 0)
  | 0, bits, h => by
    have hnil : bits = [] := List.length_eq_zero.mp (by omega)
    subst hnil
    rfl
  | n + 1, bits, h => by
    by_cases hne : bits = []
    · subst hne; rfl
    · have hpos : 0 < bits.length := List.length_pos.mpr hne
      by_cases h8 : 8 ≤ bits.length
      · have hpadne : bits ++ List.replicate ((8 - bits.length % 8) % 8) 0 ≠ [] := by
          simp [hne]
        rw [bits_to_bytes_cons bits hne, bits_to_bytes_cons _ hpadne,
          List.take_append_of_le_length (by omega), List.drop_append_of_le_length (by omega)]
        have hlen : ((bits.drop 8).length % 8) = bits.length % 8 := by
          rw [List.length_drop]; omega
        have hrec := bits_to_bytes_pad_aux n (bits.drop 8)
          (by rw [List.length_drop]; omega)
        rw [← hlen]
        exact congrArg _ hrec
      · have hlt : bits.length < 8 := by omega
        have hmod : bits.length % 8 = bits.length := Nat.mod_eq_of_lt hlt
        have hpadmod : (8 - bits.length) % 8 = 8 - bits.length := by omega
        rw [hmod, hpadmod]
        have hplen : (bits ++ List.replicate (8 - bits.length) 0).length = 8 := by
          simp [List.length_replicate]
          omega
        have hpadne : bits ++ List.replicate (8 - bits.length) 0 ≠ [] := by
          simp [hne]
        rw [bits_to_bytes_cons bits hne, bits_to_bytes_cons _ hpadne,
          List.take_of_length_le (by omega : bits.length ≤ 8),
          List.take_of_length_le (hplen.le : (bits ++ List.replicate (8 - bits.length) 0).length ≤ 8),
          List.drop_of_length_le (by omega : bits.length ≤ 8),
          List.drop_of_length_le (hplen.le : (bits ++ List.replicate (8 - bits.length) 0).length ≤ 8),
          hplen]
        simp only [Nat.sub_self, List.replicate_zero, List.append_nil]

theorem bits_to_bytes_pad (bits : List Nat) :
    bits_to_bytes bits
      = bits_to_bytes (bits ++ List.replicate ((8 - bits.length % 8) % 8) 0) :=
  bits_to_bytes_pad_aux bits.length bits le_rfl

/-- C8: bits-to-bytes produces exactly ⌈len(bits)/8⌉ bytes (written
(len + 7) / 8), zero-filling the low-order positions of a final partial
chunk (appending the missing zeros at the end changes nothing), and the
orchestrator's reported `output_length` equals ⌈`total_bits`/8⌉. -/
theorem C8_pack_length :
    (∀ bits : List Nat, (bits_to_bytes bits).length = (bits.length + 7) / 8)
    ∧ (∀ bits : List Nat,
        bits_to_bytes bits
          = bits_to_bytes (bits ++ List.replicate ((8 - bits.length % 8) % 8) 0))
    ∧ (∀ cfg (rs_encode : List Nat → List Nat) (data : List Nat),
        (CCSDSConcatenatedCode.encode cfg rs_encode data).2.output_length
          = ((CCSDSConcatenatedCode.encode cfg rs_encode data).2.total_bits + 7) / 8) :=
  ⟨bits_to_bytes_length, bits_to_bytes_pad,
   fun _ _ _ => bits_to_bytes_length _⟩

/-! Statistics unfolding lemmas (definitional). -/

theorem concat_overall_code_rate_def (cfg : ConvStandard) (rs_encode : List Nat → List Nat)
    (data : List Nat) :
    (CCSDSConcatenatedCode.encode cfg rs_encode data).2.overall_code_rate
      = if (CCSDSConvolutionalCode.encode cfg.constraint_length cfg.generators
            (bytes_to_bits (rs_encode data))).1.isEmpty then (0 : ℚ)
        else ((data.length * 8 : Nat) : ℚ)
          / ((CCSDSConvolutionalCode.encode cfg.constraint_length cfg.generators
              (bytes_to_bits (rs_encode data))).1.length : ℚ) := rfl

theorem concat_total_bits_def (cfg : ConvStandard) (rs_encode : List Nat → List Nat)
    (data : List Nat) :
    (CCSDSConcatenatedCode.encode cfg rs_encode data).2.total_bits
      = (CCSDSConvolutionalCode.encode cfg.constraint_length cfg.generators
          (bytes_to_bits (rs_encode data))).1.length := rfl

theorem conv_expansion_ratio_def (K : Nat) (gens : List Nat) (input_bits : List Nat) :
    (CCSDSConvolutionalCode.encode K gens input_bits).2.expansion_ratio
      = if input_bits.isEmpty then (0 : ℚ)
        else ((CCSDSConvolutionalCode.encode K gens input_bits).1.length : ℚ)
          / (input_bits.length : ℚ) := rfl

theorem conv_output_length_def (K : Nat) (gens : List Nat) (input_bits : List Nat) :
    (CCSDSConvolutionalCode.encode K gens input_bits).2.output_length
      = (CCSDSConvolutionalCode.encode K gens input_bits).1.length := rfl

theorem conv_input_length_def (K : Nat) (gens : List Nat) (input_bits : List Nat) :
    (CCSDSConvolutionalCode.encode K gens input_bits).2.input_length
      = input_bits.length := rfl

theorem registry_encode_min_length (name : String) (cfg : ConvStandard)
    (hmem : (name, cfg) ∈ STANDARD_POLYNOMIALS) (bits : List Nat) :
    8 ≤ (CCSDSConvolutionalCode.encode cfg.constraint_length cfg.generators bits).1.length := by
  simp only [STANDARD_POLYNOMIALS, List.mem_cons, List.not_mem_nil, or_false,
    Prod.mk.injEq] at hmem
  rcases hmem with ⟨rfl, rfl⟩ | ⟨rfl, rfl⟩ | ⟨rfl, rfl⟩ <;>
    · rw [encode_output_length _ _ _ (by norm_num)]
      simp only [List.length_cons, List.length_nil]
      omega

/-- C4: the orchestrator's `overall_code_rate` equals
(8 · original data length) / (convolutional output bit count) for every
registered convolutional standard (in particular it is that quotient on
non-empty input and 0 on empty input, with no division by zero), and the
convolutional encoder's `expansion_ratio` equals output_length /
input_length on non-empty input and 0 on empty input. -/
theorem C4_rate_guards :
    (∀ name cfg, (name, cfg) ∈ STANDARD_POLYNOMIALS →
      ∀ (rs_encode : List Nat → List Nat) (data : List Nat),
        ((CCSDSConcatenatedCode.encode cfg rs_encode data).2.overall_code_rate
            = ((data.length * 8 : Nat) : ℚ)
                / ((CCSDSConcatenatedCode.encode cfg rs_encode data).2.total_bits : ℚ))
        ∧ (data = [] →
            (CCSDSConcatenatedCode.encode cfg rs_encode data).2.overall_code_rate = 0))
    ∧ (∀ K gens (bits : List Nat),
        (bits ≠ [] →
          (CCSDSConvolutionalCode.encode K gens bits).2.expansion_ratio
            = ((CCSDSConvolutionalCode.encode K gens bits).2.output_length : ℚ)
                / ((CCSDSConvolutionalCode.encode K gens bits).2.input_length : ℚ))
        ∧ (bits = [] →
            (CCSDSConvolutionalCode.encode K gens bits).2.expansion_ratio = 0)) := by
  constructor
  · intro name cfg hmem rs_encode data
    have hlen := registry_encode_min_length name cfg hmem (bytes_to_bits (rs_encode data))
    have hne : (CCSDSConvolutionalCode.encode cfg.constraint_length cfg.generators
        (bytes_to_bits (rs_encode data))).1 ≠ [] := by
      intro hnil
      rw [hnil] at hlen
      simp at hlen
    constructor
    · rw [concat_overall_code_rate_def, concat_total_bits_def,
        if_neg (by simp [List.isEmpty_iff, hne])]
    · intro hd
      subst hd
      rw [concat_overall_code_rate_def]
      split <;> simp
  · intro K gens bits
    constructor
    · intro hbits
      rw [conv_expansion_ratio_def, conv_output_length_def, conv_input_length_def,
        if_neg (by simp [List.isEmpty_iff, hbits])]
    · intro hbits
      subst hbits
      rw [conv_expansion_ratio_def]
      simp

/-- Witness for C4: the K=7 rate-1/2 standard with the identity in place of
the external RS engine on the one-byte input [5], and the empty-input
expansion ratio. -/
theorem C4_rate_guards_witness :
    ((CCSDSConcatenatedCode.encode
        ⟨7, "1/2", [0o171, 0o133], "K=7, Rate 1/2 - CCSDS 131.0-B-3"⟩ (fun l => l)
        [5]).2.overall_code_rate
      = ((([5] : List Nat).length * 8 : Nat) : ℚ)
          / ((CCSDSConcatenatedCode.encode
              ⟨7, "1/2", [0o171, 0o133], "K=7, Rate 1/2 - CCSDS 131.0-B-3"⟩ (fun l => l)
              [5]).2.total_bits : ℚ))
    ∧ (CCSDSConvolutionalCode.encode 7 [0o171, 0o133] ([] : List Nat)).2.expansion_ratio = 0 :=
  ⟨(C4_rate_guards.1 "CCSDS_k3_r12"
      ⟨7, "1/2", [0o171, 0o133], "K=7, Rate 1/2 - CCSDS 131.0-B-3"⟩
      (by decide) (fun l => l) [5]).1,
   (C4_rate_guards.2 7 [0o171, 0o133] []).2 rfl⟩

/-- C10: for every registered convolutional standard the encoder output has
at least 8 bits on any input, so in the orchestrator the zero-fallback
branch of the `if conv_encoded else 0` guard is unreachable
(`isEmpty` is never true), `overall_code_rate` always equals
(8 · data length) / (convolutional bit count), and that quotient is 0
exactly when the input data is empty. -/
theorem C10_conv_output_never_empty :
    ∀ name cfg, (name, cfg) ∈ STANDARD_POLYNOMIALS →
      (∀ bits : List Nat,
        8 ≤ (CCSDSConvolutionalCode.encode cfg.constraint_length cfg.generators bits).1.length)
      ∧ (∀ (rs_encode : List Nat → List Nat) (data : List Nat),
          ¬ ((CCSDSConvolutionalCode.encode cfg.constraint_length cfg.generators
              (bytes_to_bits (rs_encode data))).1.isEmpty = true)
          ∧ ((CCSDSConcatenatedCode.encode cfg rs_encode data).2.overall_code_rate
              = ((data.length * 8 : Nat) : ℚ)
                  / ((CCSDSConcatenatedCode.encode cfg rs_encode data).2.total_bits : ℚ))
          ∧ ((CCSDSConcatenatedCode.encode cfg rs_encode data).2.overall_code_rate = 0
              ↔ data = [])) := by
  intro name cfg hmem
  refine ⟨registry_encode_min_length name cfg hmem, ?_⟩
  intro rs_encode data
  have hlen := registry_encode_min_length name cfg hmem (bytes_to_bits (rs_encode data))
  have hne : (CCSDSConvolutionalCode.encode cfg.constraint_length cfg.generators
      (bytes_to_bits (rs_encode data))).1 ≠ [] := by
    intro hnil
    rw [hnil] at hlen
    simp at hlen
  have hcond : ¬ ((CCSDSConvolutionalCode.encode cfg.constraint_length cfg.generators
      (bytes_to_bits (rs_encode data))).1.isEmpty = true) := by
    simp [List.isEmpty_iff, hne]
  have hne0 : ((CCSDSConvolutionalCode.encode cfg.constraint_length cfg.generators
      (bytes_to_bits (rs_encode data))).1.length : ℚ) ≠ 0 := by
    rw [Nat.cast_ne_zero]
    omega
  refine ⟨hcond, ?_, ?_⟩
  · rw [concat_overall_code_rate_def, concat_total_bits_def, if_neg hcond]
  · rw [concat_overall_code_rate_def, if_neg hcond, div_eq_zero_iff, or_iff_left hne0,
      Nat.cast_eq_zero]
    simp [List.length_eq_zero]

/-- Witness for C10: the K=5 rate-1/2 standard on empty input still emits 8
bits, and with an RS stub and empty data the rate is 0. -/
theorem C10_conv_output_never_empty_witness :
    8 ≤ (CCSDSConvolutionalCode.encode 5 [0o31, 0o27] ([] : List Nat)).1.length
    ∧ ((CCSDSConcatenatedCode.encode
          ⟨5, "1/2", [0o31, 0o27], "K=5, Rate 1/2 - Simpler variant"⟩
          (fun _ => []) []).2.overall_code_rate = 0 ↔ ([] : List Nat) = []) :=
  ⟨(C10_conv_output_never_empty "CCSDS_k5_r12"
      ⟨5, "1/2", [0o31, 0o27], "K=5, Rate 1/2 - Simpler variant"⟩ (by decide)).1 [],
   ((C10_conv_output_never_empty "CCSDS_k5_r12"
      ⟨5, "1/2", [0o31, 0o27], "K=5, Rate 1/2 - Simpler variant"⟩ (by decide)).2
      (fun _ => []) []).2.2⟩

/-- C6 counterexample: the input string "2" parses to the single integer 2,
which is outside {0, 1}, and the call succeeds (the parsed value 2 is handed
to the encoder) instead of failing with a parse error. -/
theorem C6_counterexample_digit_two :
    parseBits ['2'] = some [2]
    ∧ ccsds_convolution_encode ['2'] "CCSDS_k3_r12" = .success [2]
    ∧ ¬((2 : Int) = 0 ∨ (2 : Int) = 1) := by
  decide

/-- C6 as amended: for every input string at the boundary of
`ccsds_convolution_encode` and `convolution_encode`, either every token
parses as a decimal integer or the call fails with a parse error; the parsed
integers are passed to the encoder without being validated to lie in {0, 1},
so digit characters 2-9 are encoded rather than rejected. -/
theorem C6_amended_parse_unvalidated :
    ∀ (input : List Char) (standard : String),
      standard ∈ STANDARD_POLYNOMIALS.map Prod.fst →
      (parseBits input = none →
        ccsds_convolution_encode input standard = .error "ParseError")
      ∧ (∀ bits, parseBits input = some bits →
          ccsds_convolution_encode input standard = .success bits)
      ∧ (∀ bits, parseBits input = some bits → convolution_encode input = .success bits) := by
  intro input standard hmem
  refine ⟨?_, ?_, ?_⟩
  · intro hp
    simp [ccsds_convolution_encode, hp]
  · intro bits hp
    cases h : CCSDSConvolutionalCode.init standard with
    | error e =>
      have hok := (lookupStd_isOk_iff STANDARD_POLYNOMIALS standard).mpr hmem
      unfold CCSDSConvolutionalCode.init at h
      rw [h] at hok
      simp [Except.isOk, Except.toBool] at hok
    | ok cfg =>
      simp [ccsds_convolution_encode, hp, h]
  · intro bits hp
    simp [convolution_encode, hp]

/-- Witness for C6 as amended: a non-integer character fails with the parse
error, while a well-formed bit string is parsed and handed to both
encoders. -/
theorem C6_amended_parse_unvalidated_witness :
    ccsds_convolution_encode ['a'] "CCSDS_k3_r12" = .error "ParseError"
    ∧ ccsds_convolution_encode ['1', '0'] "CCSDS_k3_r12" = .success [1, 0]
    ∧ convolution_encode ['1', '0'] = .success [1, 0] :=
  ⟨(C6_amended_parse_unvalidated ['a'] "CCSDS_k3_r12" (by decide)).1 (by decide),
   (C6_amended_parse_unvalidated ['1', '0'] "CCSDS_k3_r12" (by decide)).2.1 [1, 0] (by decide),
   (C6_amended_parse_unvalidated ['1', '0'] "CCSDS_k3_r12" (by decide)).2.2 [1, 0] (by decide)⟩

end CCSDSFec
